import Mathlib

/-!
Verification of the HIR instruction-graph helpers of the xenia-canary CPU
dynamic-binary-translation pipeline (src/xenia/cpu/hir/instr.h) against the
natural-language specification.

Shallow embedding: the pointer-heavy C++ graph (Value*, Instr*, Use lists)
is embedded as an arena of records addressed by stable Nat indices inside a
Graph, exactly as the specification's design notes prescribe for a
reimplementation.  A nullable pointer becomes an Option of an index:
none models nullptr, some k models a pointer to arena slot k.
-/

namespace XeniaHir

/-- HIR opcode numbers.  The full opcode table lives in opcodes.h; the
claims only distinguish the mov-tunnel opcodes, AND, ADD and a generic
remainder, so the embedding carries those constructors plus OTHER. -/
inductive Opcode where
  | ASSIGN
  | ZERO_EXTEND
  | SIGN_EXTEND
  | TRUNCATE
  | AND
  | ADD
  | LOAD_CONSTANT
  | OTHER (n : Nat)
deriving DecidableEq, Repr

/-- Operand-kind of one slot of an opcode signature: ignored, label,
offset, symbol, or value (OPCODE_SIG_TYPE_V). -/
inductive OpcodeSignatureType where
  | X
  | L
  | O
  | S
  | V
deriving DecidableEq, Repr

open OpcodeSignatureType

/-- Decode one 3-bit signature field to its operand kind. -/
def decodeSigType (n : Nat) : OpcodeSignatureType :=
  match n with
  | 0 => X
  | 1 => L
  | 2 => O
  | 3 => S
  | 4 => V
  | _ => X

/-- Modelled from the spec: the opcode descriptor bit-packs the operand-type
signature (which of dest/src1/src2/src3 are values vs. labels vs. raw
constants) in four 3-bit fields, dest in the low bits (opcodes.h is absent
from src/).  Field k of a packed signature. -/
def sigField (signature : Nat) (k : Nat) : OpcodeSignatureType :=
  decodeSigType ((signature >>> (3 * k)) % 8)

/-- Modelled from the spec: UnpackOpcodeSig (opcodes.h absent from src/)
decodes a packed signature into (dest, src1, src2, src3) operand kinds. -/
def UnpackOpcodeSig (signature : Nat) :
    OpcodeSignatureType × OpcodeSignatureType × OpcodeSignatureType ×
      OpcodeSignatureType :=
  (sigField signature 0, sigField signature 1, sigField signature 2,
    sigField signature 3)

/-- Modelled from the spec: IsOpcodeBinaryValue (opcodes.h absent from
src/) holds of a signature whose both source slots are values, independent
of the destination; a binary operator has no third source. -/
def IsOpcodeBinaryValue (signature : Nat) : Bool :=
  sigField signature 1 = V && sigField signature 2 = V &&
    sigField signature 3 = X

/-- Pack a signature from four operand kinds (inverse of UnpackOpcodeSig),
used to build concrete opcode descriptors. -/
def packSig (d s1 s2 s3 : OpcodeSignatureType) : Nat :=
  let enc : OpcodeSignatureType → Nat
    | X => 0
    | L => 1
    | O => 2
    | S => 3
    | V => 4
  enc d + 8 * enc s1 + 64 * enc s2 + 512 * enc s3

/-- The opcode descriptor: immutable, globally shared, one per opcode
number, so structural equality of descriptors models C++ pointer equality
on the shared descriptor table. -/
structure OpcodeInfo where
  num : Opcode
  signature : Nat
deriving DecidableEq, Repr

/-- Modelled from the spec: a Value record (value.h absent from src/) — a
typed single-static-assignment operand with an optional constant payload
(IsConstant is true iff the payload is populated), a nullable defining
instruction, and an intrusive set of Use edges back to every instruction
operand slot that references it.  A Use pairs (instruction index,
operand-slot index). -/
structure Value where
  constant? : Option Int
  dfn : Option Nat
  uses : List (Nat × Nat)
deriving DecidableEq, Repr

/-- An Instr record: opcode descriptor (nullable pointer), flags, and the
three operand slots.  The claims under verification only exercise the
value arm of the C++ operand union, so a slot is an optional value index
(none models a null Value pointer).  Block linkage is held by the graph's
program-order list. -/
structure Instr where
  opcode : Option OpcodeInfo
  flags : Nat
  src1 : Option Nat
  src2 : Option Nat
  src3 : Option Nat
deriving DecidableEq, Repr

/-- Slot accessor: srcs[n] for n = 0, 1, 2. -/
def Instr.srcN (i : Instr) (n : Nat) : Option Nat :=
  match n with
  | 0 => i.src1
  | 1 => i.src2
  | 2 => i.src3
  | _ => none

/-- The arena: value records, instruction records, and the live program
order (the block linkage of the doubly-linked instruction list). -/
structure Graph where
  values : List Value
  instrs : List Instr
  order : List Nat
deriving Repr

def Graph.val? (g : Graph) (vid : Nat) : Option Value :=
  g.values[vid]?

def Graph.instr? (g : Graph) (iid : Nat) : Option Instr :=
  g.instrs[iid]?

/-- Value::IsConstant on a value index: the constant payload is populated.
A dangling index (no record) is never constant. -/
def IsConstant (g : Graph) (vid : Nat) : Bool :=
  match g.val? vid with
  | some v => v.constant?.isSome
  | none => false

/-- The defining instruction of a value index (Value::def through the
arena); none both for a null value pointer and for a definition-less
value (parameter / builder-materialized constant). -/
def valueDef (g : Graph) (vid? : Option Nat) : Option Nat :=
  vid?.bind fun vid => (g.val? vid).bind fun v => v.dfn

/-- Instr::BinaryValueArrangeByPredicateExclusive, translated clause by
clause from instr.h: null source or null opcode or non-binary-value
signature yields (nullptr, nullptr); otherwise the pair is arranged so the
unique predicate-satisfying operand comes first, and ties (zero or two
satisfying operands) yield (nullptr, nullptr). -/
def Instr.BinaryValueArrangeByPredicateExclusive (i : Instr)
    (pred : Nat → Bool) : Option Nat × Option Nat :=
  match i.src1, i.src2 with
  | some src1_value, some src2_value =>
    match i.opcode with
    | none => (none, none)
    | some oi =>
      if !(IsOpcodeBinaryValue oi.signature) then (none, none)
      else if pred src1_value then
        if pred src2_value then (none, none)
        else (some src1_value, some src2_value)
      else if pred src2_value then (some src2_value, some src1_value)
      else (none, none)
  | _, _ => (none, none)

/-- Instr::BinaryValueArrangeAsConstAndVar: the exclusive arrangement with
predicate Value::IsConstant. -/
def Instr.BinaryValueArrangeAsConstAndVar (g : Graph) (i : Instr) :
    Option Nat × Option Nat :=
  i.BinaryValueArrangeByPredicateExclusive fun value => IsConstant g value

/-- The predicate of Instr::BinaryValueArrangeByDefiningOpcode: the value
has a non-null defining instruction whose opcode pointer equals op_ptr. -/
def DefinedByOp (g : Graph) (op_ptr : OpcodeInfo) (vid : Nat) : Bool :=
  match (g.val? vid).bind fun v => v.dfn with
  | some d => decide ((g.instr? d).bind (fun ins => ins.opcode) = some op_ptr)
  | none => false

/-- Instr::BinaryValueArrangeByDefiningOpcode from instr.h. -/
def Instr.BinaryValueArrangeByDefiningOpcode (g : Graph) (i : Instr)
    (op_ptr : OpcodeInfo) : Option Nat × Option Nat :=
  i.BinaryValueArrangeByPredicateExclusive fun value => DefinedByOp g op_ptr value

/-- Instr::BinaryValueArrangeByDefOpAndConstant from instr.h: the
defining-opcode arrangement, additionally requiring the other operand to
be constant. -/
def Instr.BinaryValueArrangeByDefOpAndConstant (g : Graph) (i : Instr)
    (op_ptr : OpcodeInfo) : Option Nat × Option Nat :=
  let result := i.BinaryValueArrangeByDefiningOpcode g op_ptr
  match result.1 with
  | none => result
  | some _ =>
    match result.2 with
    | some s => if !(IsConstant g s) then (none, none) else result
    | none => (none, none)

/-- Instr::VisitValueOperands from instr.h, with the templated callback
generalized over a result type that the successive invocations thread:
the signature is unpacked and the callback runs on (src slot, index) for
each source whose signature kind is OPCODE_SIG_TYPE_V.  The source
dereferences the opcode descriptor unconditionally, so a null opcode is
out of contract; the embedding returns the accumulator unchanged there. -/
def Instr.VisitValueOperands {α : Type} (i : Instr)
    (call_for_values : α → Option Nat → Nat → α) (a : α) : α :=
  match i.opcode with
  | none => a
  | some oi =>
    let signature := oi.signature
    let t_src1 := sigField signature 1
    let t_src2 := sigField signature 2
    let t_src3 := sigField signature 3
    let a1 := if t_src1 = V then call_for_values a i.src1 0 else a
    let a2 := if t_src2 = V then call_for_values a1 i.src2 1 else a1
    if t_src3 = V then call_for_values a2 i.src3 2 else a2

/-- The invocation trace of VisitValueOperands: the (slot, index) pairs of
exactly those source slots whose signature kind is value, in slot order. -/
def valueOperandTrace (i : Instr) : List (Option Nat × Nat) :=
  match i.opcode with
  | none => []
  | some oi =>
    (if sigField oi.signature 1 = V then [(i.src1, 0)] else []) ++
      (if sigField oi.signature 2 = V then [(i.src2, 1)] else []) ++
        (if sigField oi.signature 3 = V then [(i.src3, 2)] else [])

/-! MovTunnel flag bits, from the MovTunnel enum in instr.h. -/

def MOVTUNNEL_ASSIGNS : Nat := 1
def MOVTUNNEL_MOVZX : Nat := 2
def MOVTUNNEL_MOVSX : Nat := 4
def MOVTUNNEL_TRUNCATE : Nat := 8
def MOVTUNNEL_AND32FF : Nat := 16

/-- Modelled from the spec: the single-step classification behind
GetDestDefTunnelMovs (the method body lives in instr.cc, absent from
src/).  An instruction is a mov tunnel when it is an assign, zero-extend,
sign-extend or truncate (the chain continues through src1), or an AND
whose constant operand, arranged by BinaryValueArrangeAsConstAndVar, is
0xFFFFFFFF (the chain continues through the variable operand).  Returns
the MovTunnel flag bit of the kind and the source slot the chain follows;
none when the instruction is not a tunnel. -/
def movTunnelStep (g : Graph) (ins : Instr) : Option (Nat × Option Nat) :=
  match ins.opcode with
  | none => none
  | some oi =>
    match oi.num with
    | Opcode.ASSIGN => some (MOVTUNNEL_ASSIGNS, ins.src1)
    | Opcode.ZERO_EXTEND => some (MOVTUNNEL_MOVZX, ins.src1)
    | Opcode.SIGN_EXTEND => some (MOVTUNNEL_MOVSX, ins.src1)
    | Opcode.TRUNCATE => some (MOVTUNNEL_TRUNCATE, ins.src1)
    | Opcode.AND =>
      match ins.BinaryValueArrangeAsConstAndVar g with
      | (some c, some v) =>
        if ((g.val? c).bind fun vr => vr.constant?) = some (0xFFFFFFFF : Int)
        then some (MOVTUNNEL_AND32FF, some v)
        else none
      | _ => none
    | _ => none

/-- Modelled from the spec: Instr::GetDestDefSkipAssigns (instr.cc absent
from src/) follows a value's producer chain through pure assign opcodes
only and returns the first non-assign producer; the chain dies (null) at
a definition-less value.  The fuel argument bounds the walk, standing in
for the C++ loop over a finite acyclic producer chain. -/
def Instr.GetDestDefSkipAssigns (g : Graph) : Nat → Nat → Option Nat
  | 0, _ => none
  | fuel + 1, i =>
    match g.instr? i with
    | none => none
    | some ins =>
      if ((ins.opcode.map fun oi => oi.num) = some Opcode.ASSIGN : Bool) then
        match valueDef g ins.src1 with
        | some d => Instr.GetDestDefSkipAssigns g fuel d
        | none => none
      else some i

/-- Modelled from the spec: the loop of Instr::GetDestDefTunnelMovs
(instr.cc absent from src/): starting from instruction i with the
accumulated traversed-kind flags acc, follow the producer chain while the
current instruction is a mov tunnel whose kind is enabled in the caller's
in_flags; stop and return the current instruction when it is not, OR-ing
each traversed kind's flag bit into the accumulator; the chain dies
(null) at a definition-less value. -/
def tunnelMovsAux (g : Graph) (in_flags : Nat) :
    Nat → Nat → Nat → Option Nat × Nat
  | 0, _, acc => (none, acc)
  | fuel + 1, i, acc =>
    match g.instr? i with
    | none => (none, acc)
    | some ins =>
      match movTunnelStep g ins with
      | some (flag, src?) =>
        if in_flags &&& flag ≠ 0 then
          match valueDef g src? with
          | some d => tunnelMovsAux g in_flags fuel d (acc ||| flag)
          | none => (none, acc ||| flag)
        else (some i, acc)
      | none => (some i, acc)

/-- Modelled from the spec: Instr::GetDestDefTunnelMovs (instr.cc absent
from src/): follow the chain through the caller-specified subset of
tunnel kinds, returning the first producer outside that subset and, as
the second component (the tunnel_flags output parameter), exactly the
kinds actually traversed. -/
def Instr.GetDestDefTunnelMovs (g : Graph) (fuel : Nat) (i : Nat)
    (tunnel_flags : Nat) : Option Nat × Nat :=
  tunnelMovsAux g tunnel_flags fuel i 0

/-! Receiver-threading variants of the arrangement helpers.  The C++
methods are non-const, so a call could in principle write through this or
through the graph; their bodies in instr.h contain no assignment at all,
so the faithful translation of a call returns the receiver instruction
and the graph unchanged next to the computed pair.  These variants record
that frame for the frame-effect claim. -/

def Instr.BinaryValueArrangeByPredicateExclusiveRun (i : Instr)
    (g : Graph) (pred : Nat → Bool) :
    (Option Nat × Option Nat) × Graph × Instr :=
  (i.BinaryValueArrangeByPredicateExclusive pred, g, i)

def Instr.BinaryValueArrangeAsConstAndVarRun (i : Instr) (g : Graph) :
    (Option Nat × Option Nat) × Graph × Instr :=
  (i.BinaryValueArrangeAsConstAndVar g, g, i)

def Instr.BinaryValueArrangeByDefiningOpcodeRun (i : Instr) (g : Graph)
    (op_ptr : OpcodeInfo) : (Option Nat × Option Nat) × Graph × Instr :=
  (i.BinaryValueArrangeByDefiningOpcode g op_ptr, g, i)

def Instr.BinaryValueArrangeByDefOpAndConstantRun (i : Instr) (g : Graph)
    (op_ptr : OpcodeInfo) : (Option Nat × Option Nat) × Graph × Instr :=
  (i.BinaryValueArrangeByDefOpAndConstant g op_ptr, g, i)

/-! Graph mutation operations.  Their bodies live in instr.cc / value.cc,
absent from src/; each is modelled from the specification's operation
descriptions (SetOperand, Replace, Remove, MoveBefore, ReplaceUsesWith)
over the arena. -/

/-- Update the value record at index vid (no-op on a dangling index). -/
def Graph.updateVal (g : Graph) (vid : Nat) (f : Value → Value) : Graph :=
  { g with values := g.values.modify f vid }

/-- Update the instruction record at index iid (no-op on a dangling
index). -/
def Graph.updateInstr (g : Graph) (iid : Nat) (f : Instr → Instr) : Graph :=
  { g with instrs := g.instrs.modify f iid }

/-- Modelled from the spec: Value::AddUse (value.h/value.cc absent from
src/) records the use edge (instruction, slot) in the value's use-set. -/
def addUse (g : Graph) (vid : Nat) (u : Nat × Nat) : Graph :=
  g.updateVal vid fun v => { v with uses := u :: v.uses }

/-- Modelled from the spec: Value::RemoveUse (value.h/value.cc absent from
src/) removes the use edge (instruction, slot) from the value's use-set. -/
def removeUse (g : Graph) (vid : Nat) (u : Nat × Nat) : Graph :=
  g.updateVal vid fun v => { v with uses := v.uses.erase u }

/-- Write operand slot idx of an instruction record. -/
def Instr.writeSrc (ins : Instr) (idx : Nat) (v? : Option Nat) : Instr :=
  match idx with
  | 0 => { ins with src1 := v? }
  | 1 => { ins with src2 := v? }
  | 2 => { ins with src3 := v? }
  | _ => ins

/-- Modelled from the spec: Instr::set_srcN / SetOperand (instr.cc absent
from src/) detaches any previous use-edge on slot idx of instruction i,
writes the slot, then attaches a use-edge from the new value when it is
non-null. -/
def set_srcN (g : Graph) (i : Nat) (idx : Nat) (v? : Option Nat) : Graph :=
  match g.instr? i with
  | none => g
  | some ins =>
    let g1 :=
      match ins.srcN idx with
      | some old => removeUse g old (i, idx)
      | none => g
    let g2 := g1.updateInstr i fun insr => insr.writeSrc idx v?
    match v? with
    | some nv => addUse g2 nv (i, idx)
    | none => g2

/-- Modelled from the spec: Instr::Replace (instr.cc absent from src/)
swaps the opcode descriptor and flags in place, leaving operands and use
records untouched. -/
def Instr.Replace (g : Graph) (i : Nat) (new_opcode : Option OpcodeInfo)
    (new_flags : Nat) : Graph :=
  g.updateInstr i fun ins =>
    { ins with opcode := new_opcode, flags := new_flags }

/-- Release the use-edge u of operand slot value s? when the slot is
populated (one per-slot step of Instr::Remove). -/
def condRemoveUse (g : Graph) (s? : Option Nat) (u : Nat × Nat) : Graph :=
  match s? with
  | some v => removeUse g v u
  | none => g

/-- Modelled from the spec: Instr::Remove (instr.cc absent from src/)
detaches the instruction from the block's list and releases every operand
use-edge it holds. -/
def Instr.Remove (g : Graph) (i : Nat) : Graph :=
  match g.instr? i with
  | none => { g with order := g.order.erase i }
  | some ins =>
    let g3 := condRemoveUse (condRemoveUse (condRemoveUse g
      ins.src1 (i, 0)) ins.src2 (i, 1)) ins.src3 (i, 2)
    { g3 with order := g3.order.erase i }

/-- The use-list effect of one conditional use-release at value w. -/
def eraseIfHolds (w : Nat) (s? : Option Nat) (u : Nat × Nat)
    (l : List (Nat × Nat)) : List (Nat × Nat) :=
  if s? = some w then l.erase u else l

/-- Insert x immediately before the first occurrence of j, or at the end
when j does not occur: the list relinking behind MoveBefore. -/
def insertBefore (l : List Nat) (j x : Nat) : List Nat :=
  match l with
  | [] => [x]
  | a :: rest => if a = j then x :: a :: rest else a :: insertBefore rest j x

/-- Modelled from the spec: Instr::MoveBefore (instr.cc absent from src/)
relinks the instruction in front of the other instruction in program
order; operands, use records, opcode and flags are untouched. -/
def Instr.MoveBefore (g : Graph) (i : Nat) (other : Nat) : Graph :=
  { g with order := insertBefore (g.order.erase i) other i }

/-- One operand-slot rewrite of ReplaceUsesWith: v becomes v2. -/
def substValue (v v2 w : Nat) : Nat :=
  if w = v then v2 else w

/-- Rewrite every operand slot of an instruction from v to v2. -/
def substSlots (v v2 : Nat) (ins : Instr) : Instr :=
  { ins with
    src1 := ins.src1.map (substValue v v2),
    src2 := ins.src2.map (substValue v v2),
    src3 := ins.src3.map (substValue v v2) }

/-- Modelled from the spec: Value::ReplaceUsesWith (value.h/value.cc
absent from src/) iterates every use of the value, rewrites the operand
slot to the other value and migrates the use record; the net state is
embedded directly: every operand slot holding v now holds v2, v's use
records have moved to v2's use-set, and v is left with zero uses. -/
def ReplaceUsesWith (g : Graph) (v v2 : Nat) : Graph :=
  let migrated := ((g.val? v).map fun vr => vr.uses).getD []
  let instrs2 := g.instrs.map (substSlots v v2)
  let g2 := { g with instrs := instrs2 }
  let g3 := g2.updateVal v fun vr => { vr with uses := [] }
  g3.updateVal v2 fun vr => { vr with uses := vr.uses ++ migrated }

/-! The use-set consistency invariant. -/

/-- Operand slot slot of live instruction i currently holds value vid. -/
def SlotHolds (g : Graph) (i slot vid : Nat) : Prop :=
  i ∈ g.order ∧ ((g.instr? i).bind fun ins => ins.srcN slot) = some vid

instance (g : Graph) (i slot vid : Nat) : Decidable (SlotHolds g i slot vid) := by
  unfold SlotHolds; infer_instance

/-- Use-set consistency: for every value record, the use-set has no
duplicate records, every record points to a live instruction slot that
currently holds the value, and every live instruction slot holding the
value has a record — together: exactly one record per holding slot and no
stray records. -/
def UseConsistent (g : Graph) : Prop :=
  ∀ vid vr, g.val? vid = some vr →
    vr.uses.Nodup ∧
    (∀ u ∈ vr.uses, SlotHolds g u.1 u.2 vid) ∧
    (∀ i ∈ g.order, ∀ slot, slot < 3 →
      ((g.instr? i).bind fun ins => ins.srcN slot) = some vid →
        (i, slot) ∈ vr.uses)

/-- Executable check of use-set consistency on a concrete graph. -/
def useConsistentB (g : Graph) : Bool :=
  (List.range g.values.length).all fun vid =>
    match g.val? vid with
    | none => true
    | some vr =>
      vr.uses.Nodup &&
        (vr.uses.all fun u => decide (SlotHolds g u.1 u.2 vid)) &&
        (g.order.all fun i =>
          (List.range 3).all fun slot =>
            match (g.instr? i).bind fun ins => ins.srcN slot with
            | some w => w ≠ vid || decide ((i, slot) ∈ vr.uses)
            | none => true)

/-! Path relations characterizing the producer-chain walks. -/

/-- Instruction i is an assign (opcode number comparison against the
shared ASSIGN descriptor). -/
def isAssign (g : Graph) (i : Nat) : Bool :=
  (((g.instr? i).bind fun ins => ins.opcode).map fun oi => oi.num) =
    some Opcode.ASSIGN

/-- The producer chain from i reaches r through assign instructions only:
either i = r, or i is an assign whose source's definition continues the
chain. -/
inductive AssignPath (g : Graph) : Nat → Nat → Prop where
  | refl (i : Nat) : AssignPath g i i
  | step (i d r : Nat) (ins : Instr) (hins : g.instr? i = some ins)
      (ha : isAssign g i = true) (hd : valueDef g ins.src1 = some d)
      (hp : AssignPath g d r) : AssignPath g i r

/-- The producer chain from i reaches r through mov tunnels whose kinds
are all enabled in in_flags, and t is the OR of the flag bits of the
kinds actually traversed. -/
inductive TunnelReach (g : Graph) (in_flags : Nat) :
    Nat → Nat → Nat → Prop where
  | refl (i : Nat) : TunnelReach g in_flags i i 0
  | step (i d r : Nat) (flag : Nat) (src? : Option Nat) (t : Nat)
      (ins : Instr) (hins : g.instr? i = some ins)
      (hstep : movTunnelStep g ins = some (flag, src?))
      (hallow : in_flags &&& flag ≠ 0)
      (hd : valueDef g src? = some d)
      (hp : TunnelReach g in_flags d r t) :
      TunnelReach g in_flags i r (flag ||| t)

/-- Instruction r is where the tunnel walk stops: it exists in the graph
and is not a mov tunnel of a kind enabled in in_flags. -/
def TunnelTerminal (g : Graph) (in_flags : Nat) (r : Nat) : Prop :=
  ∃ ins, g.instr? r = some ins ∧
    ∀ flag src?, movTunnelStep g ins = some (flag, src?) →
      in_flags &&& flag = 0

/-! Concrete opcode descriptors and example graphs, used to instantiate
the theorems below on the concrete inputs the specification describes. -/

/-- ADD: binary value operator (dest and both sources are values). -/
def ADD_info : OpcodeInfo :=
  { num := Opcode.ADD, signature := packSig V V V X }

/-- ASSIGN: unary value operator (src2 unused, hence not binary-value). -/
def ASSIGN_info : OpcodeInfo :=
  { num := Opcode.ASSIGN, signature := packSig V V X X }

/-- ZERO_EXTEND: unary value operator. -/
def ZERO_EXTEND_info : OpcodeInfo :=
  { num := Opcode.ZERO_EXTEND, signature := packSig V V X X }

/-- AND: binary value operator. -/
def AND_info : OpcodeInfo :=
  { num := Opcode.AND, signature := packSig V V V X }

/-- LOAD_CONSTANT: materializes a constant, no value sources. -/
def LOAD_CONSTANT_info : OpcodeInfo :=
  { num := Opcode.LOAD_CONSTANT, signature := packSig V O X X }

/-- A two-value arena: value 0 is constant 7, value 1 is non-constant;
no instructions.  Used to exercise the arrangement helpers. -/
def pairG : Graph :=
  { values := [ { constant? := some 7, dfn := none, uses := [] },
                { constant? := none, dfn := none, uses := [] } ],
    instrs := [], order := [] }

/-- An ADD instruction over two operand slots. -/
def mkAdd (s1 s2 : Option Nat) : Instr :=
  { opcode := some ADD_info, flags := 0, src1 := s1, src2 := s2,
    src3 := none }

/-- The specification's tunneling chain: instruction 0 materializes the
constant c (value 0), instruction 1 is v1 = assign(c), instruction 2 is
v2 = assign(v1), instruction 3 is v3 = add(v2, v2); every use-set is
populated consistently. -/
def chainG : Graph :=
  { values := [ { constant? := some 7, dfn := some 0, uses := [(1, 0)] },
                { constant? := none, dfn := some 1, uses := [(2, 0)] },
                { constant? := none, dfn := some 2, uses := [(3, 0), (3, 1)] },
                { constant? := none, dfn := some 3, uses := [] } ],
    instrs := [ { opcode := some LOAD_CONSTANT_info, flags := 0,
                  src1 := none, src2 := none, src3 := none },
                { opcode := some ASSIGN_info, flags := 0, src1 := some 0,
                  src2 := none, src3 := none },
                { opcode := some ASSIGN_info, flags := 0, src1 := some 1,
                  src2 := none, src3 := none },
                { opcode := some ADD_info, flags := 0, src1 := some 2,
                  src2 := some 2, src3 := none } ],
    order := [0, 1, 2, 3] }

/-- A chain with a zero-extend: instruction 0 materializes value 0,
instruction 1 is v1 = zero_extend(v0), instruction 2 is v2 = assign(v1).
-/
def zextChainG : Graph :=
  { values := [ { constant? := some 7, dfn := some 0, uses := [(1, 0)] },
                { constant? := none, dfn := some 1, uses := [(2, 0)] },
                { constant? := none, dfn := some 2, uses := [] } ],
    instrs := [ { opcode := some LOAD_CONSTANT_info, flags := 0,
                  src1 := none, src2 := none, src3 := none },
                { opcode := some ZERO_EXTEND_info, flags := 0,
                  src1 := some 0, src2 := none, src3 := none },
                { opcode := some ASSIGN_info, flags := 0, src1 := some 1,
                  src2 := none, src3 := none } ],
    order := [0, 1, 2] }

/-- An assign instruction whose two slots hold values 0 and 1: its
signature is unary, so it is not a binary-value instruction. -/
def asgEx : Instr :=
  { opcode := some ASSIGN_info, flags := 0, src1 := some 0,
    src2 := some 1, src3 := none }

/-- A graph for the defining-opcode arrangement: instruction 0 defines
value 0 by ADD, value 1 is a constant with no definition, instruction 1
is add(v0, v1). -/
def defOpG : Graph :=
  { values := [ { constant? := none, dfn := some 0, uses := [(1, 0)] },
                { constant? := some 3, dfn := none, uses := [(1, 1)] },
                { constant? := none, dfn := some 1, uses := [] } ],
    instrs := [ mkAdd none none,
                mkAdd (some 0) (some 1) ],
    order := [0, 1] }

/-! Theorems. -/

/-- Characterization of BinaryValueArrangeByPredicateExclusive on a
binary-value instruction whose two source slots hold values: the result
is the if-cascade of the source. -/
theorem exclusive_arrange_eq (i : Instr) (pred : Nat → Bool) (v1 v2 : Nat)
    (oi : OpcodeInfo) (h1 : i.src1 = some v1) (h2 : i.src2 = some v2)
    (hop : i.opcode = some oi)
    (hbin : IsOpcodeBinaryValue oi.signature = true) :
    i.BinaryValueArrangeByPredicateExclusive pred =
      if pred v1 then
        if pred v2 then (none, none) else (some v1, some v2)
      else if pred v2 then (some v2, some v1)
      else (none, none) := by
  unfold Instr.BinaryValueArrangeByPredicateExclusive
  rw [h1, h2, hop]
  simp [hbin]

/-- C1: on an instruction whose opcode signature is binary-value and whose
two source slots hold values, BinaryValueArrangeAsConstAndVar (the
exclusive arrangement with predicate IsConstant) returns (null, null)
when zero or both operand values are constant, and returns the pair
(constant value, non-constant value) in that order when exactly one is
constant, whichever of src1/src2 held the constant. -/
theorem binaryValueArrangeAsConstAndVar_spec (g : Graph) (i : Instr)
    (v1 v2 : Nat) (oi : OpcodeInfo) (h1 : i.src1 = some v1)
    (h2 : i.src2 = some v2) (hop : i.opcode = some oi)
    (hbin : IsOpcodeBinaryValue oi.signature = true) :
    i.BinaryValueArrangeAsConstAndVar g =
      if IsConstant g v1 && !(IsConstant g v2) then (some v1, some v2)
      else if IsConstant g v2 && !(IsConstant g v1) then (some v2, some v1)
      else (none, none) := by
  unfold Instr.BinaryValueArrangeAsConstAndVar
  rw [exclusive_arrange_eq i _ v1 v2 oi h1 h2 hop hbin]
  cases hc1 : IsConstant g v1 <;> cases hc2 : IsConstant g v2 <;> simp

/-- Witness for C1: in the two-value arena, add(constant, variable)
arranges to (constant, variable). -/
theorem binaryValueArrangeAsConstAndVar_spec_witness :
    (mkAdd (some 0) (some 1)).BinaryValueArrangeAsConstAndVar pairG =
      (some 0, some 1) := by
  have h := binaryValueArrangeAsConstAndVar_spec pairG
    (mkAdd (some 0) (some 1)) 0 1 ADD_info rfl rfl rfl (by decide)
  rw [h]; decide

/-- Shared helper: a null src1, null src2, null opcode or non-binary-value
signature sends all four arrangement helpers to (null, null), for every
predicate and every defining opcode. -/
theorem arrangeHelpers_null (g : Graph) (i : Instr) (op_ptr : OpcodeInfo)
    (h : i.src1 = none ∨ i.src2 = none ∨ i.opcode = none ∨
      ∀ oi, i.opcode = some oi → IsOpcodeBinaryValue oi.signature = false) :
    (∀ pred, i.BinaryValueArrangeByPredicateExclusive pred = (none, none)) ∧
    i.BinaryValueArrangeAsConstAndVar g = (none, none) ∧
    i.BinaryValueArrangeByDefiningOpcode g op_ptr = (none, none) ∧
    i.BinaryValueArrangeByDefOpAndConstant g op_ptr = (none, none) := by
  have hex : ∀ pred, i.BinaryValueArrangeByPredicateExclusive pred =
      (none, none) := by
    intro pred
    rcases h with h | h | h | h
    · cases hs2 : i.src2 <;>
        simp [Instr.BinaryValueArrangeByPredicateExclusive, h, hs2]
    · cases hs1 : i.src1 <;>
        simp [Instr.BinaryValueArrangeByPredicateExclusive, h, hs1]
    · cases hs1 : i.src1 <;> cases hs2 : i.src2 <;>
        simp [Instr.BinaryValueArrangeByPredicateExclusive, h, hs1, hs2]
    · cases hs1 : i.src1 <;> cases hs2 : i.src2 <;> cases hop : i.opcode <;>
        simp [Instr.BinaryValueArrangeByPredicateExclusive, hs1, hs2, hop]
      simp [h _ hop]
  refine ⟨hex, hex _, hex _, ?_⟩
  unfold Instr.BinaryValueArrangeByDefOpAndConstant
  rw [show i.BinaryValueArrangeByDefiningOpcode g op_ptr = (none, none) from
    hex _]

/-- C9: the arrangement queries are total on partially populated
instructions — a null src1 value, null src2 value, null opcode pointer, or
a non-binary-value signature makes every arrangement helper return
(null, null) for every predicate and every defining opcode, so no operand
or predicate is ever evaluated there. -/
theorem arrange_total_on_partial (g : Graph) (i : Instr)
    (op_ptr : OpcodeInfo)
    (h : i.src1 = none ∨ i.src2 = none ∨ i.opcode = none ∨
      ∀ oi, i.opcode = some oi → IsOpcodeBinaryValue oi.signature = false) :
    (∀ pred, i.BinaryValueArrangeByPredicateExclusive pred = (none, none)) ∧
    i.BinaryValueArrangeAsConstAndVar g = (none, none) ∧
    i.BinaryValueArrangeByDefiningOpcode g op_ptr = (none, none) ∧
    i.BinaryValueArrangeByDefOpAndConstant g op_ptr = (none, none) :=
  arrangeHelpers_null g i op_ptr h

/-- Witness for C9: an add whose src1 slot is a null value pointer. -/
theorem arrange_total_on_partial_witness :
    ((mkAdd none (some 1)).BinaryValueArrangeByPredicateExclusive
        (fun _ => true) = (none, none)) ∧
    (mkAdd none (some 1)).BinaryValueArrangeAsConstAndVar pairG =
      (none, none) ∧
    (mkAdd none (some 1)).BinaryValueArrangeByDefiningOpcode pairG
      ADD_info = (none, none) ∧
    (mkAdd none (some 1)).BinaryValueArrangeByDefOpAndConstant pairG
      ADD_info = (none, none) := by
  have h := arrange_total_on_partial pairG (mkAdd none (some 1)) ADD_info
    (Or.inl rfl)
  exact ⟨h.1 _, h.2⟩

/-- C4: the three binary-operand arrangement helpers are pure queries.
The receiver-threading variants return the graph (values with their use
records) and the instruction (operand slots, opcode, flags) exactly as
given — the source method bodies contain no assignment — and on any
instruction whose opcode signature is not binary-value all helpers
return (null, null). -/
theorem arrange_pure_queries (g : Graph) (i : Instr) (pred : Nat → Bool)
    (op_ptr : OpcodeInfo) :
    ((i.BinaryValueArrangeByPredicateExclusiveRun g pred).2 = (g, i) ∧
      (i.BinaryValueArrangeAsConstAndVarRun g).2 = (g, i) ∧
      (i.BinaryValueArrangeByDefiningOpcodeRun g op_ptr).2 = (g, i) ∧
      (i.BinaryValueArrangeByDefOpAndConstantRun g op_ptr).2 = (g, i)) ∧
    (∀ oi, i.opcode = some oi → IsOpcodeBinaryValue oi.signature = false →
      i.BinaryValueArrangeByPredicateExclusive pred = (none, none) ∧
      i.BinaryValueArrangeAsConstAndVar g = (none, none) ∧
      i.BinaryValueArrangeByDefiningOpcode g op_ptr = (none, none) ∧
      i.BinaryValueArrangeByDefOpAndConstant g op_ptr = (none, none)) := by
  refine ⟨⟨rfl, rfl, rfl, rfl⟩, ?_⟩
  intro oi hop hbin
  have h := arrangeHelpers_null g i op_ptr (Or.inr (Or.inr (Or.inr ?_)))
  · exact ⟨h.1 pred, h.2⟩
  · intro oi2 hop2
    rw [hop] at hop2
    injection hop2 with he
    rw [← he]
    exact hbin

/-- Witness for C4: an assign (unary signature, hence not binary-value)
over the two-value arena. -/
theorem arrange_pure_queries_witness :
    ((asgEx.BinaryValueArrangeByPredicateExclusiveRun pairG
          (fun _ => true)).2 = (pairG, asgEx) ∧
      (asgEx.BinaryValueArrangeAsConstAndVarRun pairG).2 = (pairG, asgEx) ∧
      (asgEx.BinaryValueArrangeByDefiningOpcodeRun pairG ADD_info).2 =
        (pairG, asgEx) ∧
      (asgEx.BinaryValueArrangeByDefOpAndConstantRun pairG ADD_info).2 =
        (pairG, asgEx)) ∧
    (asgEx.BinaryValueArrangeByPredicateExclusive (fun _ => true) =
        (none, none) ∧
      asgEx.BinaryValueArrangeAsConstAndVar pairG = (none, none) ∧
      asgEx.BinaryValueArrangeByDefiningOpcode pairG ADD_info =
        (none, none) ∧
      asgEx.BinaryValueArrangeByDefOpAndConstant pairG ADD_info =
        (none, none)) := by
  have h := arrange_pure_queries pairG asgEx (fun _ => true) ADD_info
  exact ⟨h.1, h.2 ASSIGN_info rfl (by decide)⟩

/-- C3: on a binary-value instruction whose two source slots hold values,
BinaryValueArrangeByDefOpAndConstant returns (defined-by-op value,
constant value) exactly when one operand is defined by op_ptr, the other
is not, and the other is constant — in either slot order — and returns
(null, null) in every other case. -/
theorem binaryValueArrangeByDefOpAndConstant_spec (g : Graph) (i : Instr)
    (v1 v2 : Nat) (oi : OpcodeInfo) (op_ptr : OpcodeInfo)
    (h1 : i.src1 = some v1) (h2 : i.src2 = some v2)
    (hop : i.opcode = some oi)
    (hbin : IsOpcodeBinaryValue oi.signature = true) :
    i.BinaryValueArrangeByDefOpAndConstant g op_ptr =
      if DefinedByOp g op_ptr v1 && !(DefinedByOp g op_ptr v2) &&
          IsConstant g v2 then (some v1, some v2)
      else if DefinedByOp g op_ptr v2 && !(DefinedByOp g op_ptr v1) &&
          IsConstant g v1 then (some v2, some v1)
      else (none, none) := by
  unfold Instr.BinaryValueArrangeByDefOpAndConstant
    Instr.BinaryValueArrangeByDefiningOpcode
  rw [exclusive_arrange_eq i _ v1 v2 oi h1 h2 hop hbin]
  cases hd1 : DefinedByOp g op_ptr v1 <;>
    cases hd2 : DefinedByOp g op_ptr v2 <;>
      cases hc1 : IsConstant g v1 <;> cases hc2 : IsConstant g v2 <;>
        simp [hd1, hd2, hc1, hc2]

/-- Witness for C3: add(v0, v1) where v0 is defined by an ADD instruction
and v1 is constant arranges to (v0, v1). -/
theorem binaryValueArrangeByDefOpAndConstant_spec_witness :
    (mkAdd (some 0) (some 1)).BinaryValueArrangeByDefOpAndConstant defOpG
      ADD_info = (some 0, some 1) := by
  have h := binaryValueArrangeByDefOpAndConstant_spec defOpG
    (mkAdd (some 0) (some 1)) 0 1 ADD_info ADD_info rfl rfl rfl (by decide)
  rw [h]; decide

/-- Shared helper: when the exclusive arrangement returns a non-null
pair, its first component satisfies the predicate (and the second does
not). -/
theorem exclusive_fst_pred (i : Instr) (pred : Nat → Bool) (a b : Nat)
    (h : i.BinaryValueArrangeByPredicateExclusive pred = (some a, some b)) :
    pred a = true ∧ pred b = false := by
  rcases hs1 : i.src1 with _ | v1 <;> rcases hs2 : i.src2 with _ | v2 <;>
    rcases hop : i.opcode with _ | oi <;>
      simp only [Instr.BinaryValueArrangeByPredicateExclusive, hs1, hs2,
        hop] at h
  case some.some.some =>
    split_ifs at h with hbin hp1 hp2 hp2 <;> simp_all
  all_goals simp at h

/-- C10: a value whose defining instruction is null never satisfies the
defining-opcode predicate, so whenever BinaryValueArrangeByDefiningOpcode
(or BinaryValueArrangeByDefOpAndConstant) returns a non-null pair, the
matching first element has a non-null defining instruction whose opcode
is op_ptr — the null-def check guards the opcode dereference and makes
the predicate total. -/
theorem defining_opcode_null_def_guard (g : Graph) (i : Instr)
    (op_ptr : OpcodeInfo) :
    (∀ vid, ((g.val? vid).bind fun v => v.dfn) = none →
      DefinedByOp g op_ptr vid = false) ∧
    (∀ a b, i.BinaryValueArrangeByDefiningOpcode g op_ptr =
        (some a, some b) →
      ∃ d, ((g.val? a).bind fun v => v.dfn) = some d ∧
        ((g.instr? d).bind fun ins => ins.opcode) = some op_ptr) ∧
    (∀ a b, i.BinaryValueArrangeByDefOpAndConstant g op_ptr =
        (some a, some b) →
      ∃ d, ((g.val? a).bind fun v => v.dfn) = some d ∧
        ((g.instr? d).bind fun ins => ins.opcode) = some op_ptr) := by
  have hnull : ∀ vid, ((g.val? vid).bind fun v => v.dfn) = none →
      DefinedByOp g op_ptr vid = false := by
    intro vid hd
    unfold DefinedByOp
    rw [hd]
  have hfromPred : ∀ a, DefinedByOp g op_ptr a = true →
      ∃ d, ((g.val? a).bind fun v => v.dfn) = some d ∧
        ((g.instr? d).bind fun ins => ins.opcode) = some op_ptr := by
    intro a ha
    unfold DefinedByOp at ha
    rcases hd : (g.val? a).bind fun v => v.dfn with _ | d
    · rw [hd] at ha; cases ha
    · rw [hd] at ha
      exact ⟨d, rfl, of_decide_eq_true ha⟩
  have hdefOp : ∀ a b, i.BinaryValueArrangeByDefiningOpcode g op_ptr =
      (some a, some b) →
      ∃ d, ((g.val? a).bind fun v => v.dfn) = some d ∧
        ((g.instr? d).bind fun ins => ins.opcode) = some op_ptr := by
    intro a b hab
    exact hfromPred a (exclusive_fst_pred i _ a b hab).1
  refine ⟨hnull, hdefOp, ?_⟩
  intro a b hab
  rcases hres : i.BinaryValueArrangeByDefiningOpcode g op_ptr
    with ⟨_ | m, _ | s⟩ <;>
    simp only [Instr.BinaryValueArrangeByDefOpAndConstant, hres] at hab
  case none.none => simp at hab
  case none.some => simp at hab
  case some.none => simp at hab
  case some.some =>
    rcases hc : IsConstant g s with _ | _ <;> simp [hc] at hab
    obtain ⟨ha, hb⟩ := hab
    subst ha; subst hb
    exact hdefOp _ _ hres

/-- Witness for C10: in the defining-opcode arena, the definition-less
constant value 1 fails the predicate, and the non-null pair returned for
add(v0, v1) has as first element the value defined by the ADD at
instruction 0. -/
theorem defining_opcode_null_def_guard_witness :
    DefinedByOp defOpG ADD_info 1 = false ∧
    (∃ d, ((defOpG.val? 0).bind fun v => v.dfn) = some d ∧
      ((defOpG.instr? d).bind fun ins => ins.opcode) = some ADD_info) := by
  have h := defining_opcode_null_def_guard defOpG (mkAdd (some 0) (some 1))
    ADD_info
  exact ⟨h.1 1 (by decide), h.2.2 0 1 (by decide)⟩

/-- C5: VisitValueOperands invokes the callback exactly on the source
slots whose decoded signature kind is value, with slot indices 0, 1, 2 in
order, and on no other slot: for every callback and accumulator the run
equals the fold of the callback over that trace. -/
theorem visitValueOperands_trace {α : Type} (i : Instr) (oi : OpcodeInfo)
    (f : α → Option Nat → Nat → α) (a : α) (hop : i.opcode = some oi) :
    i.VisitValueOperands f a =
      (valueOperandTrace i).foldl (fun acc p => f acc p.1 p.2) a := by
  unfold Instr.VisitValueOperands valueOperandTrace
  rw [hop]
  by_cases h1 : sigField oi.signature 1 = V <;>
    by_cases h2 : sigField oi.signature 2 = V <;>
      by_cases h3 : sigField oi.signature 3 = V <;>
        simp [h1, h2, h3]

/-- Witness for C5: visiting add(v0, v1) with the trace-collecting
callback records exactly src1 at index 0 and src2 at index 1. -/
theorem visitValueOperands_trace_witness :
    (mkAdd (some 0) (some 1)).VisitValueOperands
        (fun (l : List (Option Nat × Nat)) v n => l ++ [(v, n)]) [] =
      [(some 0, 0), (some 1, 1)] := by
  have h := visitValueOperands_trace (mkAdd (some 0) (some 1)) ADD_info
    (fun (l : List (Option Nat × Nat)) v n => l ++ [(v, n)]) [] rfl
  rw [h]; decide

/-- C6: when GetDestDefSkipAssigns returns a producer r, the walk from i
to r went through assign instructions only (following each assign's
source definition) and r is the first non-assign producer: it exists in
the graph and is not an assign.  The specification's chain v1 = assign(c),
v2 = assign(v1), v3 = add(v2, v2) instantiates this in the witness: from
the producer of either operand of v3 the walk yields the producer of c. -/
theorem getDestDefSkipAssigns_spec (g : Graph) (fuel i r : Nat)
    (h : Instr.GetDestDefSkipAssigns g fuel i = some r) :
    AssignPath g i r ∧ isAssign g r = false ∧ (g.instr? r).isSome := by
  induction fuel generalizing i with
  | zero => cases h
  | succ fuel ih =>
    unfold Instr.GetDestDefSkipAssigns at h
    rcases hins : g.instr? i with _ | ins
    · rw [hins] at h; cases h
    · simp only [hins] at h
      by_cases ha : (ins.opcode.map fun oi => oi.num) = some Opcode.ASSIGN
      · have hcond :
            ((ins.opcode.map fun oi => oi.num) = some Opcode.ASSIGN : Bool) =
              true := by simp [ha]
        rw [hcond] at h
        simp only [eq_self_iff_true, if_true] at h
        rcases hd : valueDef g ins.src1 with _ | d
        · rw [hd] at h; cases h
        · rw [hd] at h
          obtain ⟨hp, hr, hsome⟩ := ih d h
          have hassign : isAssign g i = true := by
            simp [isAssign, hins, ha]
          exact ⟨AssignPath.step i d r ins hins hassign hd hp, hr, hsome⟩
      · have hcond :
            ((ins.opcode.map fun oi => oi.num) = some Opcode.ASSIGN : Bool) =
              false := by simp [ha]
        rw [hcond] at h
        simp only [Bool.false_eq_true, if_false] at h
        injection h with he
        subst he
        refine ⟨AssignPath.refl i, ?_, by rw [hins]; rfl⟩
        unfold isAssign
        rw [hins]
        simpa using ha

/-- Witness for C6: the specification's chain — instruction 2 is
v2 = assign(v1), instruction 1 is v1 = assign(c), instruction 0 produces
c — skips both assigns and stops at instruction 0. -/
theorem getDestDefSkipAssigns_spec_witness :
    AssignPath chainG 2 0 ∧ isAssign chainG 0 = false ∧
      (chainG.instr? 0).isSome :=
  getDestDefSkipAssigns_spec chainG 10 2 0 (by decide)

/-- Soundness of the tunnel-walk loop: a returned producer is reached
from the start by tunnel steps whose kinds are all enabled, the output
flags are the input accumulator OR-ed with exactly the traversed kinds,
and the walk stops at the first producer with no enabled tunnel step. -/
theorem tunnelMovsAux_sound (g : Graph) (in_flags : Nat)
    (fuel i acc r out : Nat)
    (h : tunnelMovsAux g in_flags fuel i acc = (some r, out)) :
    ∃ t, TunnelReach g in_flags i r t ∧ out = acc ||| t ∧
      TunnelTerminal g in_flags r := by
  induction fuel generalizing i acc with
  | zero => simp [tunnelMovsAux] at h
  | succ fuel ih =>
    unfold tunnelMovsAux at h
    rcases hins : g.instr? i with _ | ins
    · simp [hins] at h
    · simp only [hins] at h
      rcases hstep : movTunnelStep g ins with _ | ⟨flag, src?⟩
      · simp only [hstep] at h
        obtain ⟨hir, hout⟩ := Prod.mk.injEq _ _ _ _ ▸ h
        injection hir with hir
        subst hir; subst hout
        refine ⟨0, TunnelReach.refl i, by simp, ins, hins, ?_⟩
        intro f s hc
        rw [hstep] at hc
        cases hc
      · simp only [hstep] at h
        by_cases hallow : in_flags &&& flag ≠ 0
        · rw [if_pos hallow] at h
          rcases hd : valueDef g src? with _ | d
          · simp [hd] at h
          · rw [hd] at h
            obtain ⟨t, hreach, hout, hterm⟩ := ih d (acc ||| flag) h
            refine ⟨flag ||| t,
              TunnelReach.step i d r flag src? t ins hins hstep hallow hd
                hreach, ?_, hterm⟩
            rw [hout, Nat.lor_assoc]
        · rw [if_neg hallow] at h
          obtain ⟨hir, hout⟩ := Prod.mk.injEq _ _ _ _ ▸ h
          injection hir with hir
          subst hir; subst hout
          refine ⟨0, TunnelReach.refl i, by simp, ins, hins, ?_⟩
          intro f s hc
          rw [hstep] at hc
          injection hc with hc
          obtain ⟨hf, hs⟩ := Prod.mk.injEq _ _ _ _ ▸ hc
          subst hf
          exact not_not.mp (fun hx => hallow hx)

/-- C2: when GetDestDefTunnelMovs returns a producer r with output flags
out, the walk from i to r went only through mov tunnels whose kinds are
in the caller-specified subset (the MovTunnel bits of in_flags), r is the
first producer with no enabled tunnel kind, and out is exactly the OR of
the flag bits of the tunnel kinds actually traversed. -/
theorem getDestDefTunnelMovs_spec (g : Graph) (in_flags fuel i r out : Nat)
    (h : Instr.GetDestDefTunnelMovs g fuel i in_flags = (some r, out)) :
    TunnelReach g in_flags i r out ∧ TunnelTerminal g in_flags r := by
  obtain ⟨t, hreach, hout, hterm⟩ :=
    tunnelMovsAux_sound g in_flags fuel i 0 r out h
  rw [Nat.zero_or] at hout
  subst hout
  exact ⟨hreach, hterm⟩

/-- Witness for C2: in the assign-then-zero-extend chain, tunneling from
instruction 2 with the assign and zero-extend kinds enabled reaches
instruction 0 and reports exactly those two traversed kinds (1 OR 2 = 3).
-/
theorem getDestDefTunnelMovs_spec_witness :
    TunnelReach zextChainG 3 2 0 3 ∧ TunnelTerminal zextChainG 3 0 :=
  getDestDefTunnelMovs_spec zextChainG 3 10 2 0 3 (by decide)

/-! Base lemmas for the use-set consistency proof. -/

theorem val?_updateVal (g : Graph) (vid : Nat) (f : Value → Value)
    (w : Nat) : (g.updateVal vid f).val? w =
      if vid = w then (g.val? w).map f else g.val? w := by
  unfold Graph.updateVal Graph.val?
  simp only [List.getElem?_modify]
  by_cases h : vid = w <;> cases g.values[w]? <;> simp [h]

theorem instr?_updateVal (g : Graph) (vid : Nat) (f : Value → Value)
    (w : Nat) : (g.updateVal vid f).instr? w = g.instr? w := rfl

theorem order_updateVal (g : Graph) (vid : Nat) (f : Value → Value) :
    (g.updateVal vid f).order = g.order := rfl

theorem val?_updateInstr (g : Graph) (iid : Nat) (f : Instr → Instr)
    (w : Nat) : (g.updateInstr iid f).val? w = g.val? w := rfl

theorem order_updateInstr (g : Graph) (iid : Nat) (f : Instr → Instr) :
    (g.updateInstr iid f).order = g.order := rfl

theorem instr?_updateInstr (g : Graph) (iid : Nat) (f : Instr → Instr)
    (j : Nat) : (g.updateInstr iid f).instr? j =
      if iid = j then (g.instr? j).map f else g.instr? j := by
  unfold Graph.updateInstr Graph.instr?
  simp only [List.getElem?_modify]
  by_cases h : iid = j <;> cases g.instrs[j]? <;> simp [h]

theorem srcN_writeSrc_self (ins : Instr) (idx : Nat) (v? : Option Nat)
    (h : idx < 3) : (ins.writeSrc idx v?).srcN idx = v? := by
  obtain _ | _ | _ | n := idx
  · rfl
  · rfl
  · rfl
  · omega

theorem srcN_writeSrc_other (ins : Instr) (idx : Nat) (v? : Option Nat)
    (s : Nat) (h : s ≠ idx) :
    (ins.writeSrc idx v?).srcN s = ins.srcN s := by
  obtain _ | _ | _ | n := idx <;> obtain _ | _ | _ | m := s <;>
    first
      | rfl
      | exact absurd rfl h

theorem srcN_ge_three (ins : Instr) (s : Nat) (h : 3 ≤ s) :
    ins.srcN s = none := by
  obtain _ | _ | _ | m := s
  · omega
  · omega
  · omega
  · rfl

theorem mem_insertBefore (l : List Nat) (j x k : Nat) :
    k ∈ insertBefore l j x ↔ k = x ∨ k ∈ l := by
  induction l with
  | nil => simp [insertBefore]
  | cons a rest ih =>
    unfold insertBefore
    by_cases h : a = j <;> simp [h, ih]
    tauto

theorem srcN_replaceFields (ins : Instr) (op : Option OpcodeInfo)
    (fl : Nat) (s : Nat) :
    ({ins with opcode := op, flags := fl} : Instr).srcN s = ins.srcN s := by
  obtain _ | _ | _ | m := s <;> rfl

/-- Use-set consistency transfers between graphs with the same value
records, the same live instructions and the same operand-slot contents. -/
theorem useConsistent_congr (g g' : Graph)
    (hval : ∀ w, g'.val? w = g.val? w)
    (hord : ∀ j, j ∈ g'.order ↔ j ∈ g.order)
    (hslot : ∀ j s, ((g'.instr? j).bind fun ins => ins.srcN s) =
      ((g.instr? j).bind fun ins => ins.srcN s))
    (hg : UseConsistent g) : UseConsistent g' := by
  intro vid vr hv
  rw [hval] at hv
  obtain ⟨hnd, hb, hc⟩ := hg vid vr hv
  refine ⟨hnd, ?_, ?_⟩
  · intro u hu
    obtain ⟨ho, hs⟩ := hb u hu
    exact ⟨(hord u.1).mpr ho, (hslot u.1 u.2).trans hs⟩
  · intro j hj s hs3 hsv
    exact hc j ((hord j).mp hj) s hs3 ((hslot j s).symm.trans hsv)

/-- Instr::Replace preserves use-set consistency: it only swaps opcode
and flags. -/
theorem useConsistent_Replace (g : Graph) (hg : UseConsistent g) (i : Nat)
    (op : Option OpcodeInfo) (fl : Nat) :
    UseConsistent (Instr.Replace g i op fl) := by
  refine useConsistent_congr g _ (fun w => rfl) (fun j => Iff.rfl) ?_ hg
  intro j s
  unfold Instr.Replace
  rw [instr?_updateInstr]
  by_cases h : i = j
  · rw [if_pos h]
    cases g.instr? j <;> simp [srcN_replaceFields]
  · rw [if_neg h]

/-- Instr::MoveBefore preserves use-set consistency: it only relinks the
program order, and the moved instruction stays live. -/
theorem useConsistent_MoveBefore (g : Graph) (hg : UseConsistent g)
    (i j : Nat) (hi : i ∈ g.order) :
    UseConsistent (Instr.MoveBefore g i j) := by
  refine useConsistent_congr g _ (fun w => rfl) ?_ (fun jj s => rfl) hg
  intro k
  show k ∈ insertBefore (g.order.erase i) j i ↔ k ∈ g.order
  rw [mem_insertBefore]
  by_cases hk : k = i
  · subst hk; simp [hi]
  · rw [List.mem_erase_of_ne hk]
    simp [hk]

theorem instr?_addUse (g : Graph) (vid : Nat) (u : Nat × Nat) (j : Nat) :
    (addUse g vid u).instr? j = g.instr? j := rfl

theorem instr?_removeUse (g : Graph) (vid : Nat) (u : Nat × Nat)
    (j : Nat) : (removeUse g vid u).instr? j = g.instr? j := rfl

theorem order_addUse (g : Graph) (vid : Nat) (u : Nat × Nat) :
    (addUse g vid u).order = g.order := rfl

theorem order_removeUse (g : Graph) (vid : Nat) (u : Nat × Nat) :
    (removeUse g vid u).order = g.order := rfl

theorem val?_addUse (g : Graph) (vid : Nat) (u : Nat × Nat) (w : Nat) :
    (addUse g vid u).val? w = if vid = w then
      (g.val? w).map (fun v => { v with uses := u :: v.uses })
    else g.val? w :=
  val?_updateVal g vid _ w

theorem val?_removeUse (g : Graph) (vid : Nat) (u : Nat × Nat) (w : Nat) :
    (removeUse g vid u).val? w = if vid = w then
      (g.val? w).map (fun v => { v with uses := v.uses.erase u })
    else g.val? w :=
  val?_updateVal g vid _ w

/-- Core preservation argument for an operand-slot write with use-set
surgery: a graph whose instruction i had slot idx rewritten to v?, whose
old slot value lost its (i, idx) use record, and whose new slot value
gained it, is use-set consistent again. -/
theorem useConsistent_write (g : Graph) (hg : UseConsistent g)
    (i idx : Nat) (ins : Instr) (hins : g.instr? i = some ins)
    (hi : i ∈ g.order) (hidx : idx < 3) (v? : Option Nat) (G : Graph)
    (horder : G.order = g.order)
    (hinstr : ∀ j, G.instr? j = if i = j then
      (g.instr? j).map (fun insr => insr.writeSrc idx v?) else g.instr? j)
    (hval : ∀ w, G.val? w = (g.val? w).map (fun vr =>
      { vr with uses := if v? = some w then
          (i, idx) ::
            (if ins.srcN idx = some w then vr.uses.erase (i, idx)
              else vr.uses)
        else if ins.srcN idx = some w then vr.uses.erase (i, idx)
          else vr.uses })) :
    UseConsistent G := by
  intro vid vr hv
  rw [hval vid] at hv
  rcases hgv : g.val? vid with _ | vr0
  · rw [hgv] at hv; cases hv
  rw [hgv] at hv
  injection hv with hv
  have huses : vr.uses =
      if v? = some vid then
        (i, idx) ::
          (if ins.srcN idx = some vid then vr0.uses.erase (i, idx)
            else vr0.uses)
      else if ins.srcN idx = some vid then vr0.uses.erase (i, idx)
        else vr0.uses := by
    rw [← hv]
  obtain ⟨hnd0, hb0, hc0⟩ := hg vid vr0 hgv
  have hbase_nodup :
      (if ins.srcN idx = some vid then vr0.uses.erase (i, idx)
        else vr0.uses).Nodup := by
    by_cases hc : ins.srcN idx = some vid
    · rw [if_pos hc]; exact hnd0.erase _
    · rw [if_neg hc]; exact hnd0
  have hbase_sub : ∀ u, u ∈ (if ins.srcN idx = some vid then
      vr0.uses.erase (i, idx) else vr0.uses) → u ∈ vr0.uses := by
    intro u hu
    by_cases hc : ins.srcN idx = some vid
    · rw [if_pos hc] at hu; exact List.mem_of_mem_erase hu
    · rw [if_neg hc] at hu; exact hu
  have hnotin : (i, idx) ∉ (if ins.srcN idx = some vid then
      vr0.uses.erase (i, idx) else vr0.uses) := by
    by_cases hc : ins.srcN idx = some vid
    · rw [if_pos hc]; exact hnd0.not_mem_erase
    · rw [if_neg hc]
      intro hmem
      obtain ⟨_, hs⟩ := hb0 (i, idx) hmem
      rw [hins] at hs
      exact hc hs
  have hmem_base : ∀ u, u ∈ vr0.uses → u ≠ (i, idx) →
      u ∈ (if ins.srcN idx = some vid then vr0.uses.erase (i, idx)
        else vr0.uses) := by
    intro u hu hne
    by_cases hc : ins.srcN idx = some vid
    · rw [if_pos hc]; exact (List.mem_erase_of_ne hne).mpr hu
    · rw [if_neg hc]; exact hu
  have hold_holds : ∀ u, u ∈ (if ins.srcN idx = some vid then
      vr0.uses.erase (i, idx) else vr0.uses) → SlotHolds G u.1 u.2 vid := by
    intro u hu
    obtain ⟨ho, hs⟩ := hb0 u (hbase_sub u hu)
    refine ⟨horder ▸ ho, ?_⟩
    rw [hinstr u.1]
    by_cases hji : i = u.1
    · rw [if_pos hji]
      rw [← hji] at hs ⊢
      rw [hins] at hs ⊢
      have hsne : u.2 ≠ idx := by
        intro he
        have hueq : u = (i, idx) := Prod.ext hji.symm he
        exact hnotin (hueq ▸ hu)
      simp only [Option.map_some', Option.some_bind]
      rw [srcN_writeSrc_other ins idx v? u.2 hsne]
      exact hs
    · rw [if_neg hji]
      exact hs
  refine ⟨?_, ?_, ?_⟩
  · rw [huses]
    by_cases hnew : v? = some vid
    · rw [if_pos hnew]
      exact List.nodup_cons.mpr ⟨hnotin, hbase_nodup⟩
    · rw [if_neg hnew]
      exact hbase_nodup
  · intro u hu
    rw [huses] at hu
    by_cases hnew : v? = some vid
    · rw [if_pos hnew] at hu
      rcases List.mem_cons.mp hu with he | hu2
      · subst he
        refine ⟨horder ▸ hi, ?_⟩
        rw [hinstr i, if_pos rfl, hins]
        simp only [Option.map_some', Option.some_bind]
        rw [srcN_writeSrc_self ins idx v? hidx]
        exact hnew
      · exact hold_holds u hu2
    · rw [if_neg hnew] at hu
      exact hold_holds u hu
  · intro j hj s hs3 hsv
    have hjo : j ∈ g.order := horder ▸ hj
    rw [hinstr j] at hsv
    by_cases hji : i = j
    · rw [if_pos hji] at hsv
      rw [← hji] at hsv hjo ⊢
      rw [hins] at hsv
      simp only [Option.map_some', Option.some_bind] at hsv
      by_cases hsidx : s = idx
      · subst hsidx
        rw [srcN_writeSrc_self ins s v? hidx] at hsv
        rw [huses, if_pos hsv]
        exact List.mem_cons_self _ _
      · rw [srcN_writeSrc_other ins idx v? s hsidx] at hsv
        have hmem : (i, s) ∈ vr0.uses := by
          apply hc0 i hi s hs3
          rw [hins]
          exact hsv
        have hne : (i, s) ≠ (i, idx) := by
          intro he
          exact hsidx (congrArg Prod.snd he)
        have hb := hmem_base (i, s) hmem hne
        rw [huses]
        by_cases hnew : v? = some vid
        · rw [if_pos hnew]
          exact List.mem_cons_of_mem _ hb
        · rw [if_neg hnew]
          exact hb
    · rw [if_neg hji] at hsv
      have hmem : (j, s) ∈ vr0.uses := hc0 j hjo s hs3 hsv
      have hne : (j, s) ≠ (i, idx) := by
        intro he
        exact hji (congrArg Prod.fst he).symm
      have hb := hmem_base (j, s) hmem hne
      rw [huses]
      by_cases hnew : v? = some vid
      · rw [if_pos hnew]
        exact List.mem_cons_of_mem _ hb
      · rw [if_neg hnew]
        exact hb

/-- Component characterization of set_srcN on a present instruction. -/
theorem set_srcN_components (g : Graph) (i idx : Nat) (v? : Option Nat)
    (ins : Instr) (hins : g.instr? i = some ins) :
    (set_srcN g i idx v?).order = g.order ∧
    (∀ j, (set_srcN g i idx v?).instr? j = if i = j then
      (g.instr? j).map (fun insr => insr.writeSrc idx v?)
      else g.instr? j) ∧
    (∀ w, (set_srcN g i idx v?).val? w = (g.val? w).map (fun vr =>
      { vr with uses := if v? = some w then
          (i, idx) ::
            (if ins.srcN idx = some w then vr.uses.erase (i, idx)
              else vr.uses)
        else if ins.srcN idx = some w then vr.uses.erase (i, idx)
          else vr.uses })) := by
  unfold set_srcN
  simp only [hins]
  rcases hold : ins.srcN idx with _ | ov <;> simp only [hold] <;>
    rcases v? with _ | nv
  · refine ⟨rfl, fun j => instr?_updateInstr g i _ j, fun w => ?_⟩
    rw [val?_updateInstr]
    cases g.val? w <;> simp
  · refine ⟨rfl, fun j => instr?_updateInstr g i _ j, fun w => ?_⟩
    rw [val?_addUse, val?_updateInstr]
    by_cases hw : nv = w <;> cases hgw : g.val? w <;> simp [hw]
  · refine ⟨rfl, fun j => instr?_updateInstr g i _ j, fun w => ?_⟩
    rw [val?_updateInstr, val?_removeUse]
    by_cases hw : ov = w <;> cases hgw : g.val? w <;> simp [hw]
  · refine ⟨rfl, fun j => ?_, fun w => ?_⟩
    · rw [instr?_addUse, instr?_updateInstr, instr?_removeUse]
    · rw [val?_addUse, val?_updateInstr, val?_removeUse]
      by_cases hw1 : nv = w <;> by_cases hw2 : ov = w <;>
        cases hgw : g.val? w <;> simp [hw1, hw2]

/-- Modelled operation set_srcN preserves use-set consistency when the
written instruction is live and the slot index is in range. -/
theorem useConsistent_set_srcN (g : Graph) (hg : UseConsistent g)
    (i idx : Nat) (v? : Option Nat) (hi : i ∈ g.order) (hidx : idx < 3) :
    UseConsistent (set_srcN g i idx v?) := by
  rcases hins : g.instr? i with _ | ins
  · unfold set_srcN
    rw [hins]
    exact hg
  · obtain ⟨ho, hin, hv⟩ := set_srcN_components g i idx v? ins hins
    exact useConsistent_write g hg i idx ins hins hi hidx v? _ ho hin hv

theorem order_condRemoveUse (g : Graph) (s? : Option Nat) (u : Nat × Nat) :
    (condRemoveUse g s? u).order = g.order := by
  rcases s? with _ | v <;> rfl

theorem instr?_condRemoveUse (g : Graph) (s? : Option Nat) (u : Nat × Nat)
    (j : Nat) : (condRemoveUse g s? u).instr? j = g.instr? j := by
  rcases s? with _ | v <;> rfl

theorem val?_condRemoveUse (g : Graph) (s? : Option Nat) (u : Nat × Nat)
    (w : Nat) : (condRemoveUse g s? u).val? w = (g.val? w).map fun vr =>
      { vr with uses := eraseIfHolds w s? u vr.uses } := by
  rcases s? with _ | v
  · show g.val? w = (g.val? w).map _
    cases g.val? w <;> rfl
  · show (removeUse g v u).val? w = _
    rw [val?_removeUse]
    by_cases hw : v = w
    · rw [if_pos hw]
      cases g.val? w <;> simp [eraseIfHolds, hw]
    · rw [if_neg hw]
      have hcond : ¬(some v = some w : Prop) := by
        intro hc; exact hw (Option.some.inj hc)
      cases g.val? w <;> simp [eraseIfHolds, hcond]

theorem eraseIfHolds_nodup (w : Nat) (s? : Option Nat) (u : Nat × Nat)
    (l : List (Nat × Nat)) (h : l.Nodup) :
    (eraseIfHolds w s? u l).Nodup := by
  unfold eraseIfHolds
  split_ifs
  · exact h.erase _
  · exact h

theorem mem_of_eraseIfHolds (w : Nat) (s? : Option Nat) (u : Nat × Nat)
    (l : List (Nat × Nat)) (x : Nat × Nat)
    (h : x ∈ eraseIfHolds w s? u l) : x ∈ l := by
  unfold eraseIfHolds at h
  split_ifs at h
  · exact List.mem_of_mem_erase h
  · exact h

theorem eraseIfHolds_mem_of_ne (w : Nat) (s? : Option Nat) (u : Nat × Nat)
    (l : List (Nat × Nat)) (x : Nat × Nat) (hx : x ∈ l) (hne : x ≠ u) :
    x ∈ eraseIfHolds w s? u l := by
  unfold eraseIfHolds
  split_ifs
  · exact (List.mem_erase_of_ne hne).mpr hx
  · exact hx

theorem not_mem_eraseIfHolds_self (w : Nat) (s? : Option Nat)
    (u : Nat × Nat) (l : List (Nat × Nat)) (hc : s? = some w)
    (h : l.Nodup) : u ∉ eraseIfHolds w s? u l := by
  unfold eraseIfHolds
  rw [if_pos hc]
  exact h.not_mem_erase

theorem not_mem_eraseIfHolds_of (w : Nat) (s? : Option Nat)
    (u : Nat × Nat) (l : List (Nat × Nat)) (x : Nat × Nat) (h : x ∉ l) :
    x ∉ eraseIfHolds w s? u l :=
  fun hx => h (mem_of_eraseIfHolds w s? u l x hx)

/-- Component characterization of Instr::Remove on a present
instruction. -/
theorem Remove_components (g : Graph) (i : Nat) (ins : Instr)
    (hins : g.instr? i = some ins) :
    (Instr.Remove g i).order = g.order.erase i ∧
    (∀ j, (Instr.Remove g i).instr? j = g.instr? j) ∧
    (∀ w, (Instr.Remove g i).val? w = (g.val? w).map fun vr =>
      { vr with uses := eraseIfHolds w ins.src3 (i, 2) (eraseIfHolds w
        ins.src2 (i, 1) (eraseIfHolds w ins.src1 (i, 0) vr.uses)) }) := by
  unfold Instr.Remove
  simp only [hins]
  refine ⟨?_, ?_, ?_⟩
  · show (condRemoveUse _ _ _).order.erase i = g.order.erase i
    rw [order_condRemoveUse, order_condRemoveUse, order_condRemoveUse]
  · intro j
    show (condRemoveUse _ _ _).instr? j = g.instr? j
    rw [instr?_condRemoveUse, instr?_condRemoveUse, instr?_condRemoveUse]
  · intro w
    show (condRemoveUse _ _ _).val? w = _
    rw [val?_condRemoveUse, val?_condRemoveUse, val?_condRemoveUse]
    cases g.val? w <;> rfl

/-- Modelled operation Instr::Remove preserves use-set consistency; the
program order must be duplicate-free for the unlink to take the
instruction out of the live set. -/
theorem useConsistent_Remove (g : Graph) (hg : UseConsistent g) (i : Nat)
    (hnd : g.order.Nodup) : UseConsistent (Instr.Remove g i) := by
  rcases hins : g.instr? i with _ | ins
  · intro vid vr hv
    have hv2 : g.val? vid = some vr := by
      unfold Instr.Remove at hv
      rw [hins] at hv
      exact hv
    obtain ⟨hnd0, hb0, hc0⟩ := hg vid vr hv2
    have horder : (Instr.Remove g i).order = g.order.erase i := by
      unfold Instr.Remove
      rw [hins]
    have hinstr : ∀ j, (Instr.Remove g i).instr? j = g.instr? j := by
      intro j
      unfold Instr.Remove
      rw [hins]
      rfl
    refine ⟨hnd0, ?_, ?_⟩
    · intro u hu
      obtain ⟨ho, hs⟩ := hb0 u hu
      have hne : u.1 ≠ i := by
        intro he
        rw [he, hins] at hs
        cases hs
      exact ⟨horder ▸ (List.mem_erase_of_ne hne).mpr ho,
        (hinstr u.1) ▸ hs⟩
    · intro j hj s hs3 hsv
      rw [horder] at hj
      rw [hinstr j] at hsv
      exact hc0 j (List.mem_of_mem_erase hj) s hs3 hsv
  · obtain ⟨horder, hinstr, hval⟩ := Remove_components g i ins hins
    intro vid vr' hv'
    rw [hval vid] at hv'
    rcases hgv : g.val? vid with _ | vr
    · rw [hgv] at hv'; cases hv'
    rw [hgv] at hv'
    injection hv' with hv'
    have huses : vr'.uses = eraseIfHolds vid ins.src3 (i, 2)
        (eraseIfHolds vid ins.src2 (i, 1)
          (eraseIfHolds vid ins.src1 (i, 0) vr.uses)) := by
      rw [← hv']
    obtain ⟨hnd0, hb0, hc0⟩ := hg vid vr hgv
    have hnd1 := eraseIfHolds_nodup vid ins.src1 (i, 0) vr.uses hnd0
    have hnd2 := eraseIfHolds_nodup vid ins.src2 (i, 1) _ hnd1
    have hnd3 := eraseIfHolds_nodup vid ins.src3 (i, 2) _ hnd2
    refine ⟨huses ▸ hnd3, ?_, ?_⟩
    · intro u hu
      rw [huses] at hu
      obtain ⟨u1, u2⟩ := u
      have hu2 := mem_of_eraseIfHolds _ _ _ _ _ hu
      have hu1 := mem_of_eraseIfHolds _ _ _ _ _ hu2
      have hu0 := mem_of_eraseIfHolds _ _ _ _ _ hu1
      obtain ⟨ho, hs⟩ := hb0 (u1, u2) hu0
      have hne : u1 ≠ i := by
        intro he
        subst he
        have hs2 : ins.srcN u2 = some vid := by
          have hs3 := hs
          rw [show ((u1, u2) : Nat × Nat).1 = u1 from rfl, hins] at hs3
          simpa using hs3
        obtain _ | _ | _ | m := u2
        · exact not_mem_eraseIfHolds_of _ _ _ _ _
            (not_mem_eraseIfHolds_of _ _ _ _ _
              (not_mem_eraseIfHolds_self vid ins.src1 (u1, 0) vr.uses hs2
                hnd0)) hu
        · exact not_mem_eraseIfHolds_of _ _ _ _ _
            (not_mem_eraseIfHolds_self vid ins.src2 (u1, 1) _ hs2 hnd1) hu
        · exact not_mem_eraseIfHolds_self vid ins.src3 (u1, 2) _ hs2
            hnd2 hu
        · rw [srcN_ge_three ins (m + 3) (by omega)] at hs2
          cases hs2
      exact ⟨horder ▸ (List.mem_erase_of_ne hne).mpr ho,
        (hinstr u1) ▸ hs⟩
    · intro j hj s hs3 hsv
      rw [horder] at hj
      rw [hinstr j] at hsv
      have hji : j ≠ i := ((hnd.mem_erase_iff).mp hj).1
      have hjo : j ∈ g.order := List.mem_of_mem_erase hj
      have hmem := hc0 j hjo s hs3 hsv
      rw [huses]
      refine eraseIfHolds_mem_of_ne _ _ _ _ _
        (eraseIfHolds_mem_of_ne _ _ _ _ _
          (eraseIfHolds_mem_of_ne _ _ _ _ _ hmem ?_) ?_) ?_
      · intro he; exact hji (congrArg Prod.fst he)
      · intro he; exact hji (congrArg Prod.fst he)
      · intro he; exact hji (congrArg Prod.fst he)

theorem srcN_substSlots (ins : Instr) (v v2 : Nat) (s : Nat) :
    (substSlots v v2 ins).srcN s = (ins.srcN s).map (substValue v v2) := by
  obtain _ | _ | _ | m := s <;> rfl

/-- Component characterization of ReplaceUsesWith for a present source
value. -/
theorem ReplaceUsesWith_components (g : Graph) (v v2 : Nat) (vrv : Value)
    (hv : g.val? v = some vrv) (hne : v ≠ v2) :
    (ReplaceUsesWith g v v2).order = g.order ∧
    (∀ j s, (((ReplaceUsesWith g v v2).instr? j).bind fun ins =>
        ins.srcN s) =
      (((g.instr? j).bind fun ins => ins.srcN s).map (substValue v v2))) ∧
    (ReplaceUsesWith g v v2).val? v = some { vrv with uses := [] } ∧
    (∀ w, w ≠ v → w ≠ v2 →
      (ReplaceUsesWith g v v2).val? w = g.val? w) ∧
    (ReplaceUsesWith g v v2).val? v2 = (g.val? v2).map fun vr =>
      { vr with uses := vr.uses ++ vrv.uses } := by
  have hG : ReplaceUsesWith g v v2 =
      (({ g with instrs := g.instrs.map (substSlots v v2) }).updateVal v
          fun vr => { vr with uses := [] }).updateVal v2 fun vr =>
        { vr with uses := vr.uses ++ vrv.uses } := by
    unfold ReplaceUsesWith
    rw [hv]
    rfl
  rw [hG]
  have hbase : ∀ w,
      (({ g with instrs := g.instrs.map (substSlots v v2) } :
        Graph)).val? w = g.val? w := fun w => rfl
  have hbinstr : ∀ j,
      (({ g with instrs := g.instrs.map (substSlots v v2) } :
        Graph)).instr? j = (g.instr? j).map (substSlots v v2) := by
    intro j
    show (g.instrs.map (substSlots v v2))[j]? = _
    rw [List.getElem?_map]
    rfl
  refine ⟨rfl, ?_, ?_, ?_, ?_⟩
  · intro j s
    rw [instr?_updateVal, instr?_updateVal, hbinstr j]
    rcases g.instr? j with _ | ins
    · rfl
    · show (substSlots v v2 ins).srcN s = _
      rw [srcN_substSlots]
      rfl
  · rw [val?_updateVal, if_neg (fun hc => hne hc.symm), val?_updateVal,
      if_pos rfl, hbase, hv]
    rfl
  · intro w hwv hwv2
    rw [val?_updateVal, if_neg (fun hc => hwv2 hc.symm), val?_updateVal,
      if_neg (fun hc => hwv hc.symm), hbase]
  · rw [val?_updateVal, if_pos rfl, val?_updateVal,
      if_neg (fun hc => hne hc), hbase]

/-- Modelled operation Value::ReplaceUsesWith preserves use-set
consistency when both values are present and distinct. -/
theorem useConsistent_ReplaceUsesWith (g : Graph) (hg : UseConsistent g)
    (v v2 : Nat) (hne : v ≠ v2) (vrv vrv2 : Value)
    (hv : g.val? v = some vrv) (hv2 : g.val? v2 = some vrv2) :
    UseConsistent (ReplaceUsesWith g v v2) := by
  obtain ⟨horder, hslot, hvv, hother, hvv2⟩ :=
    ReplaceUsesWith_components g v v2 vrv hv hne
  obtain ⟨hndv, hbv, hcv⟩ := hg v vrv hv
  obtain ⟨hnd2, hb2, hc2⟩ := hg v2 vrv2 hv2
  intro vid vr' hv'
  by_cases hid1 : vid = v
  · subst hid1
    rw [hvv] at hv'
    injection hv' with hv'
    have huses : vr'.uses = [] := by rw [← hv']
    rw [huses]
    refine ⟨List.nodup_nil, fun u hu => absurd hu (List.not_mem_nil u),
      ?_⟩
    intro j hj s hs3 hsv
    rw [hslot j s] at hsv
    rcases hx : (g.instr? j).bind fun ins => ins.srcN s with _ | x
    · rw [hx] at hsv; cases hsv
    · rw [hx] at hsv
      simp only [Option.map_some'] at hsv
      injection hsv with hsv
      unfold substValue at hsv
      by_cases hxv : x = vid
      · rw [if_pos hxv] at hsv; exact (hne hsv.symm).elim
      · rw [if_neg hxv] at hsv; exact (hxv hsv).elim
  · by_cases hid2 : vid = v2
    · subst hid2
      rw [hvv2, hv2] at hv'
      injection hv' with hv'
      have huses : vr'.uses = vrv2.uses ++ vrv.uses := by rw [← hv']
      refine ⟨?_, ?_, ?_⟩
      · rw [huses]
        refine hnd2.append hndv ?_
        rw [List.disjoint_left]
        intro a ha hav
        obtain ⟨ho2, hs2⟩ := hb2 a ha
        obtain ⟨hov, hsv'⟩ := hbv a hav
        rw [hs2] at hsv'
        exact hne (Option.some.inj hsv').symm
      · intro u hu
        rw [huses] at hu
        rcases List.mem_append.mp hu with hu2 | huv
        · obtain ⟨ho, hs⟩ := hb2 u hu2
          refine ⟨horder ▸ ho, ?_⟩
          rw [hslot u.1 u.2, hs]
          simp only [Option.map_some']
          unfold substValue
          rw [if_neg (fun hc => hne hc.symm)]
        · obtain ⟨ho, hs⟩ := hbv u huv
          refine ⟨horder ▸ ho, ?_⟩
          rw [hslot u.1 u.2, hs]
          simp only [Option.map_some']
          unfold substValue
          rw [if_pos rfl]
      · intro j hj s hs3 hsv
        rw [horder] at hj
        rw [hslot j s] at hsv
        rcases hx : (g.instr? j).bind fun ins => ins.srcN s with _ | x
        · rw [hx] at hsv; cases hsv
        · rw [hx] at hsv
          simp only [Option.map_some'] at hsv
          injection hsv with hsv
          unfold substValue at hsv
          rw [huses]
          by_cases hxv : x = v
          · subst hxv
            exact List.mem_append.mpr (Or.inr (hcv j hj s hs3 hx))
          · rw [if_neg hxv] at hsv
            subst hsv
            exact List.mem_append.mpr (Or.inl (hc2 j hj s hs3 hx))
    · rw [hother vid hid1 hid2] at hv'
      obtain ⟨hnd0, hb0, hc0⟩ := hg vid vr' hv'
      refine ⟨hnd0, ?_, ?_⟩
      · intro u hu
        obtain ⟨ho, hs⟩ := hb0 u hu
        refine ⟨horder ▸ ho, ?_⟩
        rw [hslot u.1 u.2, hs]
        simp only [Option.map_some']
        unfold substValue
        rw [if_neg hid1]
      · intro j hj s hs3 hsv
        rw [horder] at hj
        rw [hslot j s] at hsv
        rcases hx : (g.instr? j).bind fun ins => ins.srcN s with _ | x
        · rw [hx] at hsv; cases hsv
        · rw [hx] at hsv
          simp only [Option.map_some'] at hsv
          injection hsv with hsv
          unfold substValue at hsv
          by_cases hxv : x = v
          · rw [if_pos hxv] at hsv
            exact (hid2 hsv.symm).elim
          · rw [if_neg hxv] at hsv
            subst hsv
            exact hc0 j hj s hs3 hx

/-- The executable check implies the invariant. -/
theorem useConsistent_of_B (g : Graph) (h : useConsistentB g = true) :
    UseConsistent g := by
  intro vid vr hv
  unfold useConsistentB at h
  rw [List.all_eq_true] at h
  have hvid : vid < g.values.length := by
    have hv2 : g.values[vid]? = some vr := hv
    rw [List.getElem?_eq_some] at hv2
    exact hv2.1
  have h2 := h vid (List.mem_range.mpr hvid)
  simp only [hv] at h2
  rw [Bool.and_eq_true, Bool.and_eq_true] at h2
  obtain ⟨⟨hnd, hall⟩, hord⟩ := h2
  refine ⟨by simpa using hnd, ?_, ?_⟩
  · intro u hu
    rw [List.all_eq_true] at hall
    exact of_decide_eq_true (hall u hu)
  · intro i hi slot hslot hsrc
    rw [List.all_eq_true] at hord
    have h3 := hord i hi
    rw [List.all_eq_true] at h3
    have h4 := h3 slot (List.mem_range.mpr hslot)
    simp only [hsrc] at h4
    simpa using h4

/-- C7: use-set consistency — every use record points to a live
instruction slot currently holding the value, exactly one record per
holding slot, no stray records — is preserved by every graph operation:
set_srcN (on a live instruction and in-range slot), Replace, Remove (with
a duplicate-free program order), ReplaceUsesWith (between two distinct
present values), and MoveBefore (of a live instruction). -/
theorem use_set_consistency_preserved (g : Graph) (hg : UseConsistent g) :
    (∀ i idx v?, i ∈ g.order → idx < 3 →
      UseConsistent (set_srcN g i idx v?)) ∧
    (∀ i op fl, UseConsistent (Instr.Replace g i op fl)) ∧
    (∀ i, g.order.Nodup → UseConsistent (Instr.Remove g i)) ∧
    (∀ v v2 vrv vrv2, v ≠ v2 → g.val? v = some vrv →
      g.val? v2 = some vrv2 → UseConsistent (ReplaceUsesWith g v v2)) ∧
    (∀ i j, i ∈ g.order → UseConsistent (Instr.MoveBefore g i j)) :=
  ⟨fun i idx v? hi hidx => useConsistent_set_srcN g hg i idx v? hi hidx,
    fun i op fl => useConsistent_Replace g hg i op fl,
    fun i hnd => useConsistent_Remove g hg i hnd,
    fun v v2 vrv vrv2 hne hv hv2 =>
      useConsistent_ReplaceUsesWith g hg v v2 hne vrv vrv2 hv hv2,
    fun i j hi => useConsistent_MoveBefore g hg i j hi⟩

/-- Witness for C7: the specification's consistent four-instruction
chain graph stays consistent under each of the five operations. -/
theorem use_set_consistency_preserved_witness :
    UseConsistent (set_srcN chainG 3 1 (some 1)) ∧
    UseConsistent (Instr.Replace chainG 3 (some ASSIGN_info) 0) ∧
    UseConsistent (Instr.Remove chainG 3) ∧
    UseConsistent (ReplaceUsesWith chainG 2 1) ∧
    UseConsistent (Instr.MoveBefore chainG 3 1) := by
  have hg : UseConsistent chainG := useConsistent_of_B chainG (by decide)
  have h := use_set_consistency_preserved chainG hg
  exact ⟨h.1 3 1 (some 1) (by decide) (by decide),
    h.2.1 3 (some ASSIGN_info) 0,
    h.2.2.1 3 (by decide),
    h.2.2.2.1 2 1 _ _ (by decide) rfl rfl,
    h.2.2.2.2 3 1 (by decide)⟩

end XeniaHir
